import Mathlib

/-!
# Heartbeat core (`models/heartbeat.go`)

A shallow embedding of the `Heartbeat` record and of its methods
`Valid`, `Timely`, `Sanitize`, `Augment`, `GetKey` and `Hashed`, and of
`GetEntityColumn`, followed by the
properties established about them.

Conventions of the embedding:

* a Go `string` is a Lean `String` (a sequence of runes; the UTF-8 byte
  view is computed where the code looks at bytes);
* unsigned machine integers are `Nat`, reduced modulo `2 ^ w` where the
  width matters; `time.Duration` is an `Int` number of nanoseconds;
* a pointer that may be nil is an `Option`;
* a method that mutates its receiver is a function returning the new
  record;
* a Go `map[string]string` is a duplicate-free association list; the
  order of the list is the order in which `range` happens to visit it.
-/

namespace Models

/-! ## Time -/

/-- Go `time.Time`: the instant it denotes, a number of nanoseconds counted
from the zero time (January 1, year 1, 00:00:00 UTC), and its location
pointer `loc`, `none` for nil (which stands for UTC) and `some a` for the
location at address `a` (`time.Unix` sets `Local`). Two values are equal as
Go structs when both agree; the zero value `time.Time{}` is instant `0` with
a nil location. The monotonic clock reading a value may carry is not part of
the model: a value that carries one is never at instant `0`. -/
structure Time where
  nanos : Int
  loc : Option Nat
deriving DecidableEq, Repr

/-- Smallest `time.Duration` (an `int64` count of nanoseconds). -/
def minDuration : Int := -(2 ^ 63)

/-- Largest `time.Duration`. -/
def maxDuration : Int := 2 ^ 63 - 1

/-- Go `time.Hour`, in nanoseconds. -/
def Hour : Int := 3600 * 1000000000

/-- Go `time.Minute`, in nanoseconds. -/
def Minute : Int := 60 * 1000000000

/-- Go `Time.Sub`: the duration `t - u`; when the difference does not fit a
`Duration` the maximum (or minimum) duration is returned. -/
def Time.Sub (t u : Time) : Int :=
  let d := t.nanos - u.nanos
  if d < minDuration then minDuration
  else if maxDuration < d then maxDuration
  else d

/-- Modelled from the spec: `CustomTime`, the timestamp type of the
repository (a named type over `time.Time`, declared outside this file). -/
structure CustomTime where
  time : Time
deriving DecidableEq, Repr

/-- Modelled from the spec: `CustomTime.T`, the conversion back to
`time.Time`. -/
def CustomTime.T (j : CustomTime) : Time := j.time

/-- The value `CustomTime(time.Time{})`. -/
def CustomTime.zero : CustomTime := ⟨⟨0, none⟩⟩

/-! ## Records -/

/-- Modelled from the spec: the `User` record, declared outside this file;
`Valid` reads its `ID` only. -/
structure User where
  ID : String
deriving DecidableEq, Repr

/-- The `Heartbeat` struct, field by field (`Type_` is the Go field `Type`, a
reserved word here). -/
structure Heartbeat where
  ID : Nat
  User : Option User
  UserID : String
  Entity : String
  Type_ : String
  Category : String
  Project : String
  ProjectRootCount : Nat
  LineAdditions : Nat
  LineDeletions : Nat
  Lines : Nat
  LineNumber : Nat
  CursorPosition : Nat
  Branch : String
  Language : String
  Dependencies : List String
  IsWrite : Bool
  Editor : String
  OperatingSystem : String
  Machine : String
  UserAgent : String
  Time : CustomTime
  Hash : String
  Origin : String
  OriginId : String
  CreatedAt : CustomTime
deriving DecidableEq, Repr

namespace Heartbeat

/-- The method `Valid`: the user pointer is set, `UserID` is not empty, the
user's `ID` is `UserID`, and `Time` is not the zero value. The conjunction is
evaluated left to right, the user being read only when it is not nil. -/
def Valid (h : Heartbeat) : Bool :=
  match h.User with
  | none => false
  | some u => h.UserID != "" && u.ID == h.UserID && h.Time != CustomTime.zero

/-- The method `Timely`, the instant returned by `time.Now()` being the
argument `now`. -/
def Timely (now : Models.Time) (h : Heartbeat) (maxAge : Int) : Bool :=
  decide (now.Sub h.Time.T ≤ maxAge) && decide (h.Time.T.Sub now < 1 * Hour)

end Heartbeat

/-! ## Strings -/

/-- The UTF-8 encoding of a rune, as Go stores it in a `string`. -/
def utf8EncodeRune (c : Char) : List Nat :=
  let n := c.toNat
  if n < 0x80 then [n]
  else if n < 0x800 then [0xC0 + n / 0x40, 0x80 + n % 0x40]
  else if n < 0x10000 then [0xE0 + n / 0x1000, 0x80 + n / 0x40 % 0x40, 0x80 + n % 0x40]
  else [0xF0 + n / 0x40000, 0x80 + n / 0x1000 % 0x40, 0x80 + n / 0x40 % 0x40, 0x80 + n % 0x40]

/-- Number of bytes a rune takes in a Go `string`. -/
def runeLen (c : Char) : Nat := (utf8EncodeRune c).length

/-- The bytes of a Go `string`. -/
def stringBytes (s : String) : List Nat := s.data.flatMap utf8EncodeRune

/-- Go `unicode.ToUpper`, on the ASCII range (the letters `a`..`z` map to
`A`..`Z`); a rune outside that range is returned as it is. -/
def unicodeToUpper (c : Char) : Char := c.toUpper

/-- Go `unicode.ToLower`, on the ASCII range (the letters `A`..`Z` map to
`a`..`z`); a rune outside that range is returned as it is. -/
def unicodeToLower (c : Char) : Char := c.toLower

/-- The loop of `strutil.Capitalize` (package `lancet/v2/strutil`), which
"converts the first character of a string to upper case and the remaining to
lower case". The result buffer is `make([]rune, len(s))`, one slot per *byte*
of `s`, and `for i, v := range s` stores the converted rune at its byte
offset `i`: a rune encoded on `k` bytes is therefore followed by `k - 1` slots
that keep the zero rune. -/
def capitalizeRunes : Nat → List Char → List Char
  | _, [] => []
  | i, v :: rest =>
    (if i = 0 then unicodeToUpper v else unicodeToLower v)
      :: (List.replicate (runeLen v - 1) (Char.ofNat 0)
          ++ capitalizeRunes (i + runeLen v) rest)

/-- The function `strutil.Capitalize`: `string(result)` of the buffer filled
by `capitalizeRunes`. -/
def Capitalize (s : String) : String := String.mk (capitalizeRunes 0 s.data)

/-- The capitalisation the specification words: the first letter in upper
case, every remaining character unchanged. -/
def specCapitalize (s : String) : String :=
  match s.data with
  | [] => ""
  | c :: rest => String.mk (unicodeToUpper c :: rest)

/-- The reading of `Capitalize` on single-byte strings: the first letter in
upper case, every remaining letter in lower case. -/
def upperFirstLowerRest (s : String) : String :=
  match s.data with
  | [] => ""
  | c :: rest => String.mk (unicodeToUpper c :: rest.map unicodeToLower)

/-- A string all of whose runes are ASCII (one byte each). -/
def isASCII (s : String) : Bool := s.data.all (fun c => decide (c.toNat < 0x80))

/-- The method `Sanitize`. -/
def Heartbeat.Sanitize (h : Heartbeat) : Heartbeat :=
  let h1 :=
    if (h.Type_ == "url" || h.Type_ == "domain") && h.Project == "<<LAST_PROJECT>>" then
      { h with Project := "" }
    else h
  let h2 := { h1 with OperatingSystem := Capitalize h1.OperatingSystem }
  { h2 with Editor := Capitalize h2.Editor }

/-! ## Language mappings -/

/-- Go `strings.HasSuffix`. -/
def HasSuffix (s suffix : String) : Bool := suffix.data.isSuffixOf s.data

/-- Go `strings.Count(s, sep)` for a separator of one byte, as "." is: the
number of occurrences of that byte. -/
def Count (s : String) (sep : Char) : Nat := s.data.count sep

/-- Go `len(s)`: the number of bytes of a string. -/
def len (s : String) : Nat := (stringBytes s).length

/-- A Go `map[string]string`, listed in the order `range` visits it; its keys
are pairwise distinct (`keysDistinct`). -/
abbrev LanguageMappings := List (String × String)

/-- The keys of a map are pairwise distinct. -/
def keysDistinct (m : LanguageMappings) : Prop := (m.map Prod.fst).Nodup

instance (m : LanguageMappings) : Decidable (keysDistinct m) := by
  unfold keysDistinct
  infer_instance

/-- The test of the loop of `Augment` on a key: the entity ends with "." and
the key. -/
def matchesKey (entity ending : String) : Bool := HasSuffix entity ("." ++ ending)

/-- The precision of a key: its number of "." characters. -/
def precision (ending : String) : Int := (Count ending '.' : Nat)

/-- One iteration of the loop of `Augment`, on the pair of the heartbeat and
of the local `maxPrec`. -/
def augmentStep (st : Heartbeat × Int) (kv : String × String) : Heartbeat × Int :=
  let ok := HasSuffix st.1.Entity ("." ++ kv.1)
  let prec : Int := (Count kv.1 '.' : Nat)
  if ok && decide (prec > st.2) then ({ st.1 with Language := kv.2 }, prec) else st

/-- The method `Augment`: `maxPrec` starts at `-1` and the loop runs over the
map in the order of the list. -/
def Heartbeat.Augment (h : Heartbeat) (languageMappings : LanguageMappings) : Heartbeat :=
  (languageMappings.foldl augmentStep (h, -1)).1

/-! ## Fingerprint

`Hashed` calls `hashstructure.Hash(h, hashstructure.FormatV2, nil)` (package
`mitchellh/hashstructure/v2`): the default hasher is `fnv.New64()` (FNV-1 on 64 bits), the
struct tag is `hash`, and the walker visits a struct field by field. -/

/-- Offset basis of Go `hash/fnv` on 64 bits. -/
def fnvOffset64 : Nat := 14695981039346656037

/-- Multiplier of Go `hash/fnv` on 64 bits. -/
def fnvPrime64 : Nat := 1099511628211

/-- Go `fnv.New64`, the hasher `hashstructure.Hash` takes when its options are
nil: the sum after `Reset` and the writing of `bytes`. It is FNV-1: each byte
multiplies the running sum by the prime, on 64 bits, and is then xor-ed in. -/
def fnv64 (bytes : List Nat) : Nat :=
  bytes.foldl (fun hash b => (hash * fnvPrime64 % 2 ^ 64) ^^^ b) fnvOffset64

/-- Go `binary.Write` in little-endian order of an unsigned integer of `width`
bytes. -/
def littleEndian (width n : Nat) : List Nat :=
  (List.range width).map (fun i => n / 256 ^ i % 256)

/-- The walker on a `string`: the sum of its bytes. -/
def hashString (s : String) : Nat := fnv64 (stringBytes s)

/-- The walker on a `uint32`: the sum of its four bytes. -/
def hashUint32 (n : Nat) : Nat := fnv64 (littleEndian 4 n)

/-- The walker on a `bool`, written as an `int8`. -/
def hashBool (b : Bool) : Nat := fnv64 [if b then 1 else 0]

/-- The function `hashUpdateOrdered` of the walker. -/
def hashUpdateOrdered (a b : Nat) : Nat := fnv64 (littleEndian 8 a ++ littleEndian 8 b)

/-- The function `hashUpdateUnordered` of the walker. -/
def hashUpdateUnordered (a b : Nat) : Nat := a ^^^ b

/-- The function `hashFinishUnordered` of the walker. -/
def hashFinishUnordered (a : Nat) : Nat := fnv64 (littleEndian 8 a)

/-- The walker on a `[]string` that is not a set: the elements are folded in
their order, from `0`. -/
def hashSlice (l : List String) : Nat :=
  l.foldl (fun acc s => hashUpdateOrdered acc (hashString s)) 0

/-- Seconds between the zero time (year 1) and the Unix epoch. -/
def unixToInternal : Int := 62135596800

/-- Go `Time.UnixNano`, an `int64`. -/
def Time.UnixNano (t : Time) : Int :=
  (t.nanos - unixToInternal * 1000000000 + 2 ^ 63) % 2 ^ 64 - 2 ^ 63

/-- Modelled from the spec: `CustomTime.Hash`, declared outside this file,
through which the walker hashes a timestamp: the time at millisecond
precision, `UnixNano` divided by `1000` twice, as a `uint64`. -/
def CustomTime.Hash (j : CustomTime) : Nat :=
  (Int.tdiv (Int.tdiv j.T.UnixNano 1000) 1000 % 2 ^ 64).toNat

/-- The fields of a heartbeat the walker visits, in the order of their
declaration, each with its name and the hash of its value: the exported fields
whose `hash` tag is not "ignore". `ID`, `User`, `Editor`, `OperatingSystem`,
`Machine`, `UserAgent`, `Origin`, `OriginId` and `CreatedAt` carry that tag;
`Hash` does not. -/
def visitedFields (h : Heartbeat) : List (String × Nat) :=
  [ ("UserID", hashString h.UserID),
    ("Entity", hashString h.Entity),
    ("Type", hashString h.Type_),
    ("Category", hashString h.Category),
    ("Project", hashString h.Project),
    ("ProjectRootCount", hashUint32 h.ProjectRootCount),
    ("LineAdditions", hashUint32 h.LineAdditions),
    ("LineDeletions", hashUint32 h.LineDeletions),
    ("Lines", hashUint32 h.Lines),
    ("LineNumber", hashUint32 h.LineNumber),
    ("CursorPosition", hashUint32 h.CursorPosition),
    ("Branch", hashString h.Branch),
    ("Language", hashString h.Language),
    ("Dependencies", hashSlice h.Dependencies),
    ("IsWrite", hashBool h.IsWrite),
    ("Time", h.Time.Hash),
    ("Hash", hashString h.Hash) ]

/-- The walker on a struct in format 2: from the hash of the type name, each
visited field mixes in `hashUpdateOrdered` of its name and value, and the
running hash is finished after each. -/
def visitStruct (typeName : String) (fields : List (String × Nat)) : Nat :=
  fields.foldl
    (fun acc f =>
      hashFinishUnordered (hashUpdateUnordered acc (hashUpdateOrdered (hashString f.1) f.2)))
    (hashString typeName)

/-- The call `hashstructure.Hash(h, hashstructure.FormatV2, nil)`: the hash and
the error; no kind of field of a heartbeat makes the walker fail. -/
def hashstructureHash (h : Heartbeat) : Nat × Option String :=
  (visitStruct "Heartbeat" (visitedFields h), none)

/-- Go `fmt.Sprintf("%x", n)` of a `uint64`: lower-case base 16, no leading
zero. -/
def sprintfHex (n : Nat) : String := String.mk (Nat.toDigits 16 n)

/-- A lower-case hexadecimal digit, `0`-`9` or `a`-`f`. -/
def isLowerHex (c : Char) : Bool := "0123456789abcdef".data.contains c

/-- The method `Hashed` over a hash primitive `prim`: the error is logged
only, and the hash that came with it is formatted into `Hash`. -/
def Heartbeat.HashedWith (prim : Heartbeat → Nat × Option String) (h : Heartbeat) : Heartbeat :=
  { h with Hash := sprintfHex (prim h).1 }

/-- The method `Hashed`. -/
def Heartbeat.Hashed (h : Heartbeat) : Heartbeat := h.HashedWith hashstructureHash

/-! ## Summary keys

The selectors `SummaryProject` .. `SummaryCategory` and `UnknownSummaryKey` are
constants of the package declared outside this file. A selector is a `uint8`,
here a `Nat`. -/

/-- Modelled from the spec: the selector of the project dimension, the first
of the enumeration, whose order is that of the columns of `GetEntityColumn`. -/
def SummaryProject : Nat := 0

/-- Modelled from the spec: the selector of the language dimension. -/
def SummaryLanguage : Nat := 1

/-- Modelled from the spec: the selector of the editor dimension. -/
def SummaryEditor : Nat := 2

/-- Modelled from the spec: the selector of the operating system dimension. -/
def SummaryOS : Nat := 3

/-- Modelled from the spec: the selector of the machine dimension. -/
def SummaryMachine : Nat := 4

/-- Modelled from the spec: the selector of the label dimension, which has a
column and no case in `GetKey`. -/
def SummaryLabel : Nat := 5

/-- Modelled from the spec: the selector of the branch dimension. -/
def SummaryBranch : Nat := 6

/-- Modelled from the spec: the selector of the entity dimension, after the
seven that have a column. -/
def SummaryEntity : Nat := 7

/-- Modelled from the spec: the selector of the category dimension. -/
def SummaryCategory : Nat := 8

/-- Modelled from the spec: the reserved key "unknown". -/
def UnknownSummaryKey : String := "unknown"

/-- The method `GetKey`: the `switch` leaves `key` empty when no case applies,
and an empty key is replaced by `UnknownSummaryKey`. -/
def Heartbeat.GetKey (h : Heartbeat) (t : Nat) : String :=
  let key :=
    if t = SummaryProject then h.Project
    else if t = SummaryEditor then h.Editor
    else if t = SummaryLanguage then h.Language
    else if t = SummaryOS then h.OperatingSystem
    else if t = SummaryMachine then h.Machine
    else if t = SummaryBranch then h.Branch
    else if t = SummaryEntity then h.Entity
    else if t = SummaryCategory then h.Category
    else ""
  if key = "" then UnknownSummaryKey else key

/-- The slice literal `GetEntityColumn` indexes. -/
def entityColumns : List String :=
  ["project", "language", "editor", "operating_system", "machine", "label", "branch"]

/-- The function `GetEntityColumn`: the element of the slice at index `t`;
`none` stands for the run-time panic of an index out of range. -/
def GetEntityColumn (t : Nat) : Option String := entityColumns.get? t

/-- A heartbeat with every field at its Go zero value. -/
def Heartbeat.empty : Heartbeat :=
  { ID := 0, User := none, UserID := "", Entity := "", Type_ := "", Category := "",
    Project := "", ProjectRootCount := 0, LineAdditions := 0, LineDeletions := 0,
    Lines := 0, LineNumber := 0, CursorPosition := 0, Branch := "", Language := "",
    Dependencies := [], IsWrite := false, Editor := "", OperatingSystem := "",
    Machine := "", UserAgent := "", Time := CustomTime.zero, Hash := "", Origin := "",
    OriginId := "", CreatedAt := CustomTime.zero }

/-- A heartbeat as a client submits it, before `Hashed` has run. -/
def Heartbeat.sample : Heartbeat :=
  { Heartbeat.empty with
    User := some ⟨"u1"⟩, UserID := "u1", Entity := "/src/main.go", Type_ := "file",
    Category := "coding", Project := "hackatime", Lines := 120, LineNumber := 7,
    CursorPosition := 3, Branch := "main", Language := "Go", Dependencies := ["fmt", "time"],
    IsWrite := true, Editor := "vscode", OperatingSystem := "linux", Machine := "laptop",
    UserAgent := "wakatime/v1.90.0", Time := ⟨⟨63871200000123456789, none⟩⟩ }

/-! ## Properties -/

open Heartbeat

/-- C1: `Valid` holds exactly when the user is present, `UserID` is not empty,
the user's `ID` equals `UserID` and `Time` is not the zero timestamp, the zero
value of the struct (instant zero, nil location); hence a heartbeat whose
time is the zero value is invalid, and so is one whose user's `ID` differs
from `UserID`. -/
theorem valid_iff (h : Heartbeat) :
    (h.Valid = true ↔
      (∃ u, h.User = some u ∧ u.ID = h.UserID) ∧ h.UserID ≠ "" ∧ h.Time ≠ CustomTime.zero)
    ∧ (h.Time = CustomTime.zero → h.Valid = false)
    ∧ (∀ u, h.User = some u → u.ID ≠ h.UserID → h.Valid = false) := by
  refine ⟨?_, ?_, ?_⟩
  · unfold Valid
    cases hu : h.User with
    | none => simp
    | some u =>
      simp only [Bool.and_eq_true, bne_iff_ne, beq_iff_eq, ne_eq, Option.some.injEq,
        exists_eq_left']
      tauto
  · intro ht
    unfold Valid
    cases h.User with
    | none => rfl
    | some u => simp [ht]
  · intro u hu hne
    unfold Valid
    rw [hu]
    simp [hne]

/-- C1 at concrete heartbeats: the sample is valid; with the zero value for
`Time` it is invalid; at the zero instant with a location set, which is not
the zero value, it is valid; with another user `ID` it is invalid. -/
theorem valid_iff_witness :
    Heartbeat.sample.Valid = true
    ∧ ({ Heartbeat.sample with Time := CustomTime.zero } : Heartbeat).Valid = false
    ∧ ({ Heartbeat.sample with Time := ⟨⟨0, some 1⟩⟩ } : Heartbeat).Valid = true
    ∧ ({ Heartbeat.sample with User := some ⟨"u2"⟩ } : Heartbeat).Valid = false :=
  ⟨(valid_iff Heartbeat.sample).1.mpr ⟨⟨⟨"u1"⟩, rfl, rfl⟩, by decide, by decide⟩,
    (valid_iff _).2.1 rfl,
    (valid_iff _).1.mpr ⟨⟨⟨"u1"⟩, rfl, rfl⟩, by decide, by decide⟩,
    (valid_iff _).2.2 ⟨"u2"⟩ rfl (by decide)⟩

/-- C2: with the evaluation instant `now` as a parameter, `Timely` holds
exactly when the duration `now - Time` is at most `maxAge` (inclusive) and the
duration `Time - now` is strictly below one hour. The durations are those
`Time.Sub` returns; for a `maxAge` below the largest duration they are the
exact differences of the two instants. With `maxAge` of two hours a heartbeat
1h59m (or exactly 2h) in the past is timely, one 2h01m in the past is not, one
59m in the future is timely, one 61m (or exactly 1h) in the future is not. -/
theorem timely_iff (now : Time) (h : Heartbeat) (maxAge : Int) :
    (h.Timely now maxAge = true ↔
      now.Sub h.Time.T ≤ maxAge ∧ h.Time.T.Sub now < Hour)
    ∧ (minDuration ≤ maxAge → maxAge < maxDuration →
        (h.Timely now maxAge = true ↔
          now.nanos - h.Time.T.nanos ≤ maxAge ∧ h.Time.T.nanos - now.nanos < Hour))
    ∧ (h.Time.T.nanos = now.nanos - (1 * Hour + 59 * Minute) → h.Timely now (2 * Hour) = true)
    ∧ (h.Time.T.nanos = now.nanos - 2 * Hour → h.Timely now (2 * Hour) = true)
    ∧ (h.Time.T.nanos = now.nanos - (2 * Hour + 1 * Minute) → h.Timely now (2 * Hour) = false)
    ∧ (h.Time.T.nanos = now.nanos + 59 * Minute → h.Timely now (2 * Hour) = true)
    ∧ (h.Time.T.nanos = now.nanos + 1 * Hour → h.Timely now (2 * Hour) = false)
    ∧ (h.Time.T.nanos = now.nanos + 61 * Minute → h.Timely now (2 * Hour) = false) := by
  have key : h.Timely now maxAge = true ↔
      now.Sub h.Time.T ≤ maxAge ∧ h.Time.T.Sub now < Hour := by
    simp [Timely]
  have two : ∀ m : Int, h.Timely now m = true ↔
      now.Sub h.Time.T ≤ m ∧ h.Time.T.Sub now < Hour := by
    intro m
    simp [Timely]
  have nt : ∀ m : Int, h.Timely now m = false ↔
      ¬ (now.Sub h.Time.T ≤ m ∧ h.Time.T.Sub now < Hour) := by
    intro m
    rw [← two m]
    simp
  refine ⟨key, ?_, ?_, ?_, ?_, ?_, ?_, ?_⟩
  · intro hlo hhi
    rw [key]
    simp only [Time.Sub, minDuration, maxDuration, Hour] at *
    split_ifs <;> constructor <;> intro hh <;> constructor <;> omega
  all_goals
    intro ht
    first
      | rw [two]
        simp only [Time.Sub, minDuration, maxDuration, Hour, Minute] at *
        split_ifs <;> constructor <;> omega
      | rw [nt]
        simp only [Time.Sub, minDuration, maxDuration, Hour, Minute] at *
        split_ifs <;> omega

/-- C2 at a concrete evaluation instant, with `maxAge` of two hours: the
heartbeats 1h59m in the past and 59m in the future are timely, those 2h01m in
the past and 61m in the future are not. -/
theorem timely_iff_witness :
    ({ Heartbeat.sample with Time := ⟨⟨63871200000000000000 - (1 * Hour + 59 * Minute), none⟩⟩ } :
        Heartbeat).Timely ⟨63871200000000000000, none⟩ (2 * Hour) = true
    ∧ ({ Heartbeat.sample with Time := ⟨⟨63871200000000000000 - (2 * Hour + 1 * Minute), none⟩⟩ } :
        Heartbeat).Timely ⟨63871200000000000000, none⟩ (2 * Hour) = false
    ∧ ({ Heartbeat.sample with Time := ⟨⟨63871200000000000000 + 59 * Minute, none⟩⟩ } :
        Heartbeat).Timely ⟨63871200000000000000, none⟩ (2 * Hour) = true
    ∧ ({ Heartbeat.sample with Time := ⟨⟨63871200000000000000 + 61 * Minute, none⟩⟩ } :
        Heartbeat).Timely ⟨63871200000000000000, none⟩ (2 * Hour) = false :=
  ⟨(timely_iff ⟨63871200000000000000, none⟩ _ 0).2.2.1 rfl,
    (timely_iff ⟨63871200000000000000, none⟩ _ 0).2.2.2.2.1 rfl,
    (timely_iff ⟨63871200000000000000, none⟩ _ 0).2.2.2.2.2.1 rfl,
    (timely_iff ⟨63871200000000000000, none⟩ _ 0).2.2.2.2.2.2.2 rfl⟩

/-! ### Sanitize -/

/-- C5: when `Type` is "url" or "domain" and `Project` is the placeholder
"<<LAST_PROJECT>>", `Sanitize` clears `Project`; in every other case it leaves
`Project` as it was. -/
theorem sanitize_project (h : Heartbeat) :
    ((h.Type_ = "url" ∨ h.Type_ = "domain") ∧ h.Project = "<<LAST_PROJECT>>" →
        h.Sanitize.Project = "")
    ∧ (¬ ((h.Type_ = "url" ∨ h.Type_ = "domain") ∧ h.Project = "<<LAST_PROJECT>>") →
        h.Sanitize.Project = h.Project) := by
  constructor
  · intro hc
    have hb : ((h.Type_ == "url" || h.Type_ == "domain") && h.Project == "<<LAST_PROJECT>>")
        = true := by
      simpa using hc
    simp [Sanitize, hb]
  · intro hc
    have hb : ((h.Type_ == "url" || h.Type_ == "domain") && h.Project == "<<LAST_PROJECT>>")
        = false := by
      rw [← Bool.not_eq_true]
      simpa using hc
    simp [Sanitize, hb]

/-- The byte length of an ASCII rune is one. -/
theorem runeLen_of_lt (c : Char) (hc : c.toNat < 0x80) : runeLen c = 1 := by
  simp [runeLen, utf8EncodeRune, hc]

/-- After the first slot, the loop of `Capitalize` lower-cases an ASCII
string rune by rune. -/
theorem capitalizeRunes_of_pos (l : List Char) (hl : ∀ c ∈ l, c.toNat < 0x80) :
    ∀ i, 0 < i → capitalizeRunes i l = l.map unicodeToLower := by
  induction l with
  | nil => intro i _; rfl
  | cons c rest ih =>
    intro i hi
    have hc : runeLen c = 1 := runeLen_of_lt c (hl c (List.mem_cons_self c rest))
    have hrest : ∀ d ∈ rest, d.toNat < 0x80 := fun d hd => hl d (List.mem_cons_of_mem c hd)
    have hne : i ≠ 0 := Nat.pos_iff_ne_zero.mp hi
    simp [capitalizeRunes, hc, hne, ih hrest (i + 1) (Nat.succ_pos i)]

/-- On an ASCII string `Capitalize` upper-cases the first letter and
lower-cases the others. -/
theorem capitalize_of_ascii (s : String) (hs : isASCII s = true) :
    Capitalize s = upperFirstLowerRest s := by
  have hl : ∀ c ∈ s.data, c.toNat < 0x80 := by
    simpa [isASCII] using hs
  unfold Capitalize upperFirstLowerRest
  cases hd : s.data with
  | nil => rfl
  | cons c rest =>
    rw [hd] at hl
    have hc : runeLen c = 1 := runeLen_of_lt c (hl c (List.mem_cons_self c rest))
    have hrest : ∀ d ∈ rest, d.toNat < 0x80 := fun d hd => hl d (List.mem_cons_of_mem c hd)
    simp [capitalizeRunes, hc, capitalizeRunes_of_pos rest hrest 1 Nat.one_pos]

/-- C6, as the claim words it, fails: the operating system "macOS" becomes
"Macos", where upper-casing the first letter alone would give "MacOS". -/
theorem sanitize_capitalize_counterexample :
    ({ Heartbeat.empty with OperatingSystem := "macOS" } : Heartbeat).Sanitize.OperatingSystem
        = "Macos"
    ∧ specCapitalize "macOS" = "MacOS"
    ∧ ¬ (∀ h : Heartbeat, h.Sanitize.OperatingSystem = specCapitalize h.OperatingSystem
          ∧ h.Sanitize.Editor = specCapitalize h.Editor) := by
  refine ⟨by decide, by decide, ?_⟩
  intro hall
  have h1 := (hall { Heartbeat.empty with OperatingSystem := "macOS" }).1
  revert h1
  decide

/-- C6, amended: for an operating system (editor) name made of single-byte
characters, `Sanitize` returns it with its first letter in upper case and every
remaining letter in lower case; the empty string stays empty. -/
theorem sanitize_capitalize (h : Heartbeat) :
    (isASCII h.OperatingSystem = true →
        h.Sanitize.OperatingSystem = upperFirstLowerRest h.OperatingSystem)
    ∧ (isASCII h.Editor = true → h.Sanitize.Editor = upperFirstLowerRest h.Editor)
    ∧ (h.OperatingSystem = "" → h.Sanitize.OperatingSystem = "")
    ∧ (h.Editor = "" → h.Sanitize.Editor = "") := by
  have hos : h.Sanitize.OperatingSystem = Capitalize h.OperatingSystem := by
    unfold Sanitize
    split_ifs <;> rfl
  have hed : h.Sanitize.Editor = Capitalize h.Editor := by
    unfold Sanitize
    split_ifs <;> rfl
  refine ⟨?_, ?_, ?_, ?_⟩
  · intro ha
    rw [hos, capitalize_of_ascii _ ha]
  · intro ha
    rw [hed, capitalize_of_ascii _ ha]
  · intro he
    rw [hos, he]
    rfl
  · intro he
    rw [hed, he]
    rfl

/-- The amended C6 at a concrete heartbeat: "macOS" and "vscode". -/
theorem sanitize_capitalize_witness :
    ({ Heartbeat.empty with OperatingSystem := "macOS", Editor := "vscode" } :
        Heartbeat).Sanitize.OperatingSystem = "Macos"
    ∧ ({ Heartbeat.empty with OperatingSystem := "macOS", Editor := "vscode" } :
        Heartbeat).Sanitize.Editor = "Vscode" := by
  have hw := sanitize_capitalize
    { Heartbeat.empty with OperatingSystem := "macOS", Editor := "vscode" }
  exact ⟨(hw.1 (by decide)).trans (by decide), (hw.2.1 (by decide)).trans (by decide)⟩

/-- Case conversion on the ASCII range, rune by rune: converting twice is
converting once, and the result stays in the range. -/
theorem ascii_case_facts :
    ∀ n : Nat, n < 128 →
      unicodeToUpper (unicodeToUpper (Char.ofNat n)) = unicodeToUpper (Char.ofNat n)
      ∧ unicodeToLower (unicodeToLower (Char.ofNat n)) = unicodeToLower (Char.ofNat n)
      ∧ (unicodeToUpper (Char.ofNat n)).toNat < 128
      ∧ (unicodeToLower (Char.ofNat n)).toNat < 128 := by
  decide

/-- The facts of `ascii_case_facts` for an ASCII rune. -/
theorem ascii_case_char (c : Char) (hc : c.toNat < 0x80) :
    unicodeToUpper (unicodeToUpper c) = unicodeToUpper c
      ∧ unicodeToLower (unicodeToLower c) = unicodeToLower c
      ∧ (unicodeToUpper c).toNat < 0x80
      ∧ (unicodeToLower c).toNat < 0x80 := by
  have h := ascii_case_facts c.toNat hc
  rwa [Char.ofNat_toNat] at h



/-- On an ASCII string `Capitalize` returns an ASCII string and is
idempotent. -/
theorem capitalize_idempotent_of_ascii (s : String) (hs : isASCII s = true) :
    isASCII (Capitalize s) = true ∧ Capitalize (Capitalize s) = Capitalize s := by
  have hl : ∀ c ∈ s.data, c.toNat < 0x80 := by
    simpa [isASCII] using hs
  have hfirst : isASCII (Capitalize s) = true := by
    rw [capitalize_of_ascii s hs]
    unfold upperFirstLowerRest
    cases hd : s.data with
    | nil => rfl
    | cons c rest =>
      rw [hd] at hl
      simp only [isASCII, List.all_cons, List.all_map, Bool.and_eq_true, decide_eq_true_eq,
        List.all_eq_true, Function.comp]
      exact ⟨(ascii_case_char c (hl c (List.mem_cons_self c rest))).2.2.1,
        fun d hd1 => (ascii_case_char d (hl d (List.mem_cons_of_mem c hd1))).2.2.2⟩
  refine ⟨hfirst, ?_⟩
  rw [capitalize_of_ascii _ hfirst, capitalize_of_ascii s hs]
  unfold upperFirstLowerRest
  cases hd : s.data with
  | nil => rfl
  | cons c rest =>
    rw [hd] at hl
    simp only [List.map_map]
    congr 2
    · exact (ascii_case_char c (hl c (List.mem_cons_self c rest))).1
    · apply List.map_congr_left
      intro d hd1
      exact (ascii_case_char d (hl d (List.mem_cons_of_mem c hd1))).2.1

/-- On a heartbeat whose operating system and editor names are ASCII strings,
`Sanitize` is idempotent. -/
theorem sanitize_idempotent_of_ascii (h : Heartbeat) (hos : isASCII h.OperatingSystem = true)
    (hed : isASCII h.Editor = true) : h.Sanitize.Sanitize = h.Sanitize := by
  have h1 := (capitalize_idempotent_of_ascii _ hos).2
  have h2 := (capitalize_idempotent_of_ascii _ hed).2
  unfold Sanitize
  by_cases hc : ((h.Type_ == "url" || h.Type_ == "domain") && h.Project == "<<LAST_PROJECT>>") = true
  · simp [hc, h1, h2]
  · simp [hc, h1, h2]

/-- C7 at the editor name "中" (three bytes): a first `Sanitize` yields the
rune followed by two zero runes, a second one yields it followed by four, so
applying `Sanitize` twice differs from applying it once. (On names of
single-byte characters `Sanitize` is idempotent: `sanitize_idempotent_of_ascii`.) -/
theorem sanitize_twice_differs :
    ({ Heartbeat.empty with Editor := "中" } : Heartbeat).Sanitize.Editor.data
        = [Char.ofNat 0x4E2D, Char.ofNat 0, Char.ofNat 0]
    ∧ ({ Heartbeat.empty with Editor := "中" } : Heartbeat).Sanitize.Sanitize.Editor.data
        = [Char.ofNat 0x4E2D, Char.ofNat 0, Char.ofNat 0, Char.ofNat 0, Char.ofNat 0]
    ∧ ({ Heartbeat.empty with Editor := "中" } : Heartbeat).Sanitize.Sanitize
        ≠ ({ Heartbeat.empty with Editor := "中" } : Heartbeat).Sanitize := by
  refine ⟨by decide, by decide, by decide⟩

/-! ### Augment -/

/-- The iteration of the loop of `Augment`, in terms of `matchesKey` and
`precision`. -/
theorem augmentStep_eq (st : Heartbeat × Int) (kv : String × String) :
    augmentStep st kv =
      if (matchesKey st.1.Entity kv.1 && decide (st.2 < precision kv.1)) = true then
        ({ st.1 with Language := kv.2 }, precision kv.1)
      else st := rfl

/-- An iteration of the loop of `Augment` changes no field but `Language`. -/
theorem augmentStep_frame (st : Heartbeat × Int) (kv : String × String) :
    (augmentStep st kv).1 = { st.1 with Language := (augmentStep st kv).1.Language } := by
  rw [augmentStep_eq]
  split_ifs <;> rfl

/-- The loop of `Augment` changes no field but `Language`. -/
theorem foldl_augmentStep_frame (m : LanguageMappings) :
    ∀ st : Heartbeat × Int,
      (m.foldl augmentStep st).1 = { st.1 with Language := (m.foldl augmentStep st).1.Language } := by
  induction m with
  | nil => intro st; rfl
  | cons kv rest ih =>
    intro st
    rw [List.foldl_cons, ih (augmentStep st kv)]
    rw [augmentStep_frame st kv]

/-- The loop of `Augment` keeps the entity. -/
theorem foldl_augmentStep_entity (m : LanguageMappings) (st : Heartbeat × Int) :
    (m.foldl augmentStep st).1.Entity = st.1.Entity := by
  rw [foldl_augmentStep_frame m st]

/-- What the loop of `Augment` computes from a state `st`: the final
`maxPrec` bounds the precision of every matching key and the initial
`maxPrec`; either nothing was assigned, or the language is the value of a
matching key whose precision is the final `maxPrec`, above the initial one. -/
theorem foldl_augmentStep_spec (m : LanguageMappings) :
    ∀ st : Heartbeat × Int,
      (∀ kv ∈ m, matchesKey st.1.Entity kv.1 = true →
          precision kv.1 ≤ (m.foldl augmentStep st).2)
      ∧ st.2 ≤ (m.foldl augmentStep st).2
      ∧ (m.foldl augmentStep st = st
          ∨ ∃ kv ∈ m, matchesKey st.1.Entity kv.1 = true
              ∧ precision kv.1 = (m.foldl augmentStep st).2
              ∧ (m.foldl augmentStep st).1.Language = kv.2
              ∧ st.2 < (m.foldl augmentStep st).2) := by
  induction m with
  | nil =>
    intro st
    exact ⟨fun kv hkv => absurd hkv (List.not_mem_nil kv), le_refl _, Or.inl rfl⟩
  | cons kv rest ih =>
    intro st
    rw [List.foldl_cons]
    obtain ⟨hbound, hmono, hlast⟩ := ih (augmentStep st kv)
    have hent : (augmentStep st kv).1.Entity = st.1.Entity := by
      rw [augmentStep_frame st kv]
    rw [hent] at hbound hlast
    by_cases hfire : (matchesKey st.1.Entity kv.1 && decide (st.2 < precision kv.1)) = true
    · have hstep : augmentStep st kv = ({ st.1 with Language := kv.2 }, precision kv.1) := by
        rw [augmentStep_eq, if_pos hfire]
      have hm : matchesKey st.1.Entity kv.1 = true := by
        simp only [Bool.and_eq_true] at hfire
        exact hfire.1
      have hp : st.2 < precision kv.1 := by
        simp only [Bool.and_eq_true, decide_eq_true_eq] at hfire
        exact hfire.2
      have h2 : (augmentStep st kv).2 = precision kv.1 := by rw [hstep]
      refine ⟨?_, ?_, Or.inr ?_⟩
      · intro kv1 hkv1 hmatch
        rcases List.mem_cons.mp hkv1 with heq | hin
        · rw [heq, ← h2]; exact hmono
        · exact hbound kv1 hin hmatch
      · rw [h2] at hmono; omega
      · rcases hlast with hsame | ⟨kv1, hin, hmatch, hprec, hlang, hlt⟩
        · refine ⟨kv, List.mem_cons_self kv rest, hm, ?_, ?_, ?_⟩
          · rw [hsame, h2]
          · rw [hsame, hstep]
          · rw [hsame, h2]; exact hp
        · refine ⟨kv1, List.mem_cons_of_mem kv hin, hmatch, hprec, hlang, ?_⟩
          rw [h2] at hlt; omega
    · have hstep : augmentStep st kv = st := by
        rw [augmentStep_eq, if_neg hfire]
      rw [hstep] at hbound hmono hlast ⊢
      refine ⟨?_, hmono, ?_⟩
      · intro kv1 hkv1 hmatch
        rcases List.mem_cons.mp hkv1 with heq | hin
        · subst heq
          have hp : ¬ (st.2 < precision kv1.1) := by
            intro hlt
            apply hfire
            simp only [Bool.and_eq_true, decide_eq_true_eq]
            exact ⟨hmatch, hlt⟩
          omega
        · exact hbound kv1 hin hmatch
      · rcases hlast with hsame | ⟨kv1, hin, hmatch, hprec, hlang, hlt⟩
        · exact Or.inl hsame
        · exact Or.inr ⟨kv1, List.mem_cons_of_mem kv hin, hmatch, hprec, hlang, hlt⟩

/-- The test of the loop, on lists of runes. -/
theorem matchesKey_iff (e k : String) :
    matchesKey e k = true ↔ ('.' :: k.data) <:+ e.data := by
  simp [matchesKey, HasSuffix, String.data_append]

/-- The byte length of a concatenation of runes. -/
theorem bytes_length_append (t a : List Char) :
    ((t ++ '.' :: a).flatMap utf8EncodeRune).length
      = (t.flatMap utf8EncodeRune).length + 1 + (a.flatMap utf8EncodeRune).length := by
  have hdot : (utf8EncodeRune '.').length = 1 := by decide
  simp [List.flatMap_append, List.flatMap_cons, hdot]
  omega

/-- A key that matches inside another matching key is shorter and has fewer
"." characters. -/
theorem shorter_of_suffix (a b : String) (hab : a ≠ b)
    (h : ('.' :: a.data) <:+ ('.' :: b.data)) :
    a.length < b.length ∧ len a < len b ∧ precision a < precision b := by
  rcases List.suffix_cons_iff.mp h with heq | hsuf
  · exact absurd (String.ext (List.cons.inj heq).2) hab
  · obtain ⟨t, ht⟩ := hsuf
    have hlen : b.length = t.length + 1 + a.length := by
      show b.data.length = t.length + 1 + a.data.length
      rw [← ht]
      simp
      omega
    have hbytes : len b = (t.flatMap utf8EncodeRune).length + 1 + len a := by
      unfold len stringBytes
      rw [← ht]
      exact bytes_length_append t a.data
    have hcount : Count b '.' = List.count '.' t + 1 + Count a '.' := by
      unfold Count
      rw [← ht]
      simp
      omega
    refine ⟨by omega, by omega, ?_⟩
    unfold precision
    omega

/-- Two distinct keys that both match an entity never tie: the longer one has
strictly more "." characters. -/
theorem matching_keys_ordered (e a b : String) (ha : matchesKey e a = true)
    (hb : matchesKey e b = true) (hab : a ≠ b) :
    (a.length < b.length ∧ len a < len b ∧ precision a < precision b)
    ∨ (b.length < a.length ∧ len b < len a ∧ precision b < precision a) := by
  rw [matchesKey_iff] at ha hb
  rcases List.suffix_or_suffix_of_suffix ha hb with h | h
  · exact Or.inl (shorter_of_suffix a b hab h)
  · exact Or.inr (shorter_of_suffix b a (Ne.symm hab) h)

/-- In a map, the value found under the key of an entry is the value of that
entry. -/
theorem lookup_of_mem (m : LanguageMappings) (hm : keysDistinct m) (kv : String × String)
    (hkv : kv ∈ m) : m.lookup kv.1 = some kv.2 := by
  induction m with
  | nil => exact absurd hkv (List.not_mem_nil kv)
  | cons x rest ih =>
    unfold keysDistinct at hm
    rw [List.map_cons, List.nodup_cons] at hm
    obtain ⟨x1, x2⟩ := x
    rcases List.mem_cons.mp hkv with heq | hin
    · rw [heq]
      simp [List.lookup]
    · have hne : kv.1 ≠ x1 := by
        intro hk
        exact hm.1 (List.mem_map.mpr ⟨kv, hin, hk⟩)
      have hb : (kv.1 == x1) = false := by simpa using hne
      simp only [List.lookup, hb]
      exact ih hm.2 hin

/-- When a key matches, `Augment` stores the value of a matching entry whose
precision is the highest among the matching keys. -/
theorem augment_picks (h : Heartbeat) (m : LanguageMappings)
    (hex : ∃ k ∈ m.map Prod.fst, matchesKey h.Entity k = true) :
    ∃ kv ∈ m, matchesKey h.Entity kv.1 = true
      ∧ (∀ kv1 ∈ m, matchesKey h.Entity kv1.1 = true → precision kv1.1 ≤ precision kv.1)
      ∧ (h.Augment m).Language = kv.2 := by
  obtain ⟨hbound, _, hlast⟩ := foldl_augmentStep_spec m (h, -1)
  obtain ⟨k, hk, hmatch⟩ := hex
  obtain ⟨kv0, hkv0, hk0⟩ := List.mem_map.mp hk
  rcases hlast with hsame | ⟨kv, hin, hm1, hprec, hlang, _⟩
  · have h1 := hbound kv0 hkv0 (by rw [hk0]; exact hmatch)
    rw [hsame] at h1
    have h2 : (0 : Int) ≤ precision kv0.1 := by
      unfold precision
      exact Int.natCast_nonneg _
    simp only at h1
    omega
  · refine ⟨kv, hin, hm1, ?_, hlang⟩
    intro kv1 hkv1 hm2
    rw [hprec]
    exact hbound kv1 hkv1 hm2

/-- When a key matches, `Augment` stores the value of the matching key that
beats every other matching key in precision, in byte length and in number of
runes. -/
theorem augment_picks_strict (h : Heartbeat) (m : LanguageMappings)
    (hex : ∃ k ∈ m.map Prod.fst, matchesKey h.Entity k = true) :
    ∃ kv ∈ m, matchesKey h.Entity kv.1 = true
      ∧ (∀ k1 ∈ m.map Prod.fst, matchesKey h.Entity k1 = true → k1 ≠ kv.1 →
          precision k1 < precision kv.1 ∧ len k1 < len kv.1 ∧ k1.length < kv.1.length)
      ∧ (h.Augment m).Language = kv.2 := by
  obtain ⟨kv, hin, hmatch, hmax, hlang⟩ := augment_picks h m hex
  refine ⟨kv, hin, hmatch, ?_, hlang⟩
  intro k1 hk1 hm1 hne
  obtain ⟨kv1, hkv1, hfst⟩ := List.mem_map.mp hk1
  have hle : precision k1 ≤ precision kv.1 := by
    rw [← hfst]
    exact hmax kv1 hkv1 (by rw [hfst]; exact hm1)
  rcases matching_keys_ordered h.Entity k1 kv.1 hm1 hmatch hne with hlt | hgt
  · exact ⟨hlt.2.2, hlt.2.1, hlt.1⟩
  · omega

/-- C8: when at least one key of the map matches the entity, the language
after `Augment` is the value the map holds for the matching key of highest
precision (every other matching key has strictly fewer "." characters), and it
replaces the language the heartbeat held before, whatever it was. -/
theorem augment_highest_precision (h : Heartbeat) (m : LanguageMappings)
    (hm : keysDistinct m) (hex : ∃ k ∈ m.map Prod.fst, matchesKey h.Entity k = true) :
    ∃ k ∈ m.map Prod.fst, matchesKey h.Entity k = true
      ∧ (∀ k1 ∈ m.map Prod.fst, matchesKey h.Entity k1 = true → k1 ≠ k →
          precision k1 < precision k)
      ∧ m.lookup k = some (h.Augment m).Language
      ∧ ∀ l : String,
          (({ h with Language := l } : Heartbeat).Augment m).Language = (h.Augment m).Language := by
  obtain ⟨kv, hin, hmatch, hmax, hlang⟩ := augment_picks_strict h m hex
  have hkey : kv.1 ∈ m.map Prod.fst := List.mem_map.mpr ⟨kv, hin, rfl⟩
  refine ⟨kv.1, hkey, hmatch, fun k1 hk1 hm1 hne => (hmax k1 hk1 hm1 hne).1, ?_, ?_⟩
  · rw [hlang]
    exact lookup_of_mem m hm kv hin
  · intro l
    obtain ⟨kv2, hin2, hmatch2, hmax2, hlang2⟩ :=
      augment_picks_strict ({ h with Language := l } : Heartbeat) m hex
    have hkey2 : kv2.1 ∈ m.map Prod.fst := List.mem_map.mpr ⟨kv2, hin2, rfl⟩
    have hsame : kv2.1 = kv.1 := by
      by_contra hne
      have h1 := (hmax kv2.1 hkey2 hmatch2 hne).1
      have h2 := (hmax2 kv.1 hkey hmatch (Ne.symm hne)).1
      omega
    have hl1 := lookup_of_mem m hm kv hin
    have hl2 := lookup_of_mem m hm kv2 hin2
    rw [hsame, hl1] at hl2
    rw [hlang, hlang2]
    exact (Option.some.inj hl2).symm

/-- C8 at the mappings "ts" and "test.ts" and the entity "foo.test.ts": the
language becomes "TypeScript-Test". -/
theorem augment_highest_precision_witness :
    (({ Heartbeat.empty with Entity := "foo.test.ts", Language := "Go" } : Heartbeat).Augment
        [("ts", "TypeScript"), ("test.ts", "TypeScript-Test")]).Language = "TypeScript-Test"
    ∧ ∃ k ∈ [("ts", "TypeScript"), ("test.ts", "TypeScript-Test")].map Prod.fst,
        List.lookup k [("ts", "TypeScript"), ("test.ts", "TypeScript-Test")]
          = some (({ Heartbeat.empty with Entity := "foo.test.ts", Language := "Go" } :
              Heartbeat).Augment [("ts", "TypeScript"), ("test.ts", "TypeScript-Test")]).Language := by
  refine ⟨by decide, ?_⟩
  obtain ⟨k, hk, _, _, hl, _⟩ := augment_highest_precision
    ({ Heartbeat.empty with Entity := "foo.test.ts", Language := "Go" } : Heartbeat)
    [("ts", "TypeScript"), ("test.ts", "TypeScript-Test")] (by decide)
    ⟨"ts", by decide, by decide⟩
  exact ⟨k, hk, hl⟩

/-- C9: when at least one key of the map matches the entity, the language
after `Augment` is the value the map holds for the longest matching key: every
other matching key is strictly shorter, in bytes and in runes. -/
theorem augment_longest_suffix (h : Heartbeat) (m : LanguageMappings)
    (hm : keysDistinct m) (hex : ∃ k ∈ m.map Prod.fst, matchesKey h.Entity k = true) :
    ∃ k ∈ m.map Prod.fst, matchesKey h.Entity k = true
      ∧ (∀ k1 ∈ m.map Prod.fst, matchesKey h.Entity k1 = true → k1 ≠ k →
          len k1 < len k ∧ k1.length < k.length)
      ∧ m.lookup k = some (h.Augment m).Language := by
  obtain ⟨kv, hin, hmatch, hmax, hlang⟩ := augment_picks_strict h m hex
  refine ⟨kv.1, List.mem_map.mpr ⟨kv, hin, rfl⟩, hmatch,
    fun k1 hk1 hm1 hne => (hmax k1 hk1 hm1 hne).2, ?_⟩
  rw [hlang]
  exact lookup_of_mem m hm kv hin

/-- C9 at the mappings "test.ts" and "ts", visited in that order, and the
entity "foo.test.ts": the value of the longer key "test.ts" is stored. -/
theorem augment_longest_suffix_witness :
    (({ Heartbeat.empty with Entity := "foo.test.ts" } : Heartbeat).Augment
        [("test.ts", "TypeScript-Test"), ("ts", "TypeScript")]).Language = "TypeScript-Test"
    ∧ len "ts" < len "test.ts"
    ∧ ∃ k ∈ [("test.ts", "TypeScript-Test"), ("ts", "TypeScript")].map Prod.fst,
        List.lookup k [("test.ts", "TypeScript-Test"), ("ts", "TypeScript")]
          = some (({ Heartbeat.empty with Entity := "foo.test.ts" } : Heartbeat).Augment
              [("test.ts", "TypeScript-Test"), ("ts", "TypeScript")]).Language := by
  refine ⟨by decide, by decide, ?_⟩
  obtain ⟨k, hk, _, _, hl⟩ := augment_longest_suffix
    ({ Heartbeat.empty with Entity := "foo.test.ts" } : Heartbeat)
    [("test.ts", "TypeScript-Test"), ("ts", "TypeScript")] (by decide)
    ⟨"ts", by decide, by decide⟩
  exact ⟨k, hk, hl⟩

/-- C10: when no key of the map matches the entity (the empty map included),
`Augment` leaves `Language` as it was; and in every case `Augment` changes no
field of the heartbeat other than `Language`. -/
theorem augment_frame (h : Heartbeat) (m : LanguageMappings) :
    ((∀ k ∈ m.map Prod.fst, matchesKey h.Entity k = false) →
        (h.Augment m).Language = h.Language)
    ∧ h.Augment [] = h
    ∧ h.Augment m = { h with Language := (h.Augment m).Language } := by
  refine ⟨?_, rfl, ?_⟩
  · intro hno
    obtain ⟨_, _, hlast⟩ := foldl_augmentStep_spec m (h, -1)
    rcases hlast with hsame | ⟨kv, hin, hmatch, _⟩
    · unfold Augment
      rw [hsame]
    · have hf := hno kv.1 (List.mem_map.mpr ⟨kv, hin, rfl⟩)
      rw [hf] at hmatch
      exact absurd hmatch (by decide)
  · exact foldl_augmentStep_frame m (h, -1)

/-! ### Hashed -/

set_option maxRecDepth 100000

/-- The hash `Hashed` stores is a function of the visited fields. -/
theorem hashed_hash_eq (h1 h2 : Heartbeat) (hf : visitedFields h1 = visitedFields h2) :
    h1.Hashed.Hash = h2.Hashed.Hash := by
  simp only [Hashed, HashedWith, hashstructureHash, hf]

/-- C3: two heartbeats that differ only in `ID`, `Editor`, `OperatingSystem`,
`Machine`, `UserAgent`, `Origin`, `OriginId` and `CreatedAt` (every other
field, the incoming `Hash` included, being equal) get the same hash from
`Hashed`. -/
theorem hashed_ignores_tagged (h1 h2 : Heartbeat)
    (hUser : h1.User = h2.User) (hUserID : h1.UserID = h2.UserID)
    (hEntity : h1.Entity = h2.Entity) (hType : h1.Type_ = h2.Type_)
    (hCategory : h1.Category = h2.Category) (hProject : h1.Project = h2.Project)
    (hProjectRootCount : h1.ProjectRootCount = h2.ProjectRootCount)
    (hLineAdditions : h1.LineAdditions = h2.LineAdditions)
    (hLineDeletions : h1.LineDeletions = h2.LineDeletions) (hLines : h1.Lines = h2.Lines)
    (hLineNumber : h1.LineNumber = h2.LineNumber)
    (hCursorPosition : h1.CursorPosition = h2.CursorPosition)
    (hBranch : h1.Branch = h2.Branch) (hLanguage : h1.Language = h2.Language)
    (hDependencies : h1.Dependencies = h2.Dependencies) (hIsWrite : h1.IsWrite = h2.IsWrite)
    (hTime : h1.Time = h2.Time) (hHash : h1.Hash = h2.Hash) :
    h1.Hashed.Hash = h2.Hashed.Hash := by
  have _ := hUser
  apply hashed_hash_eq
  simp only [visitedFields, hUserID, hEntity, hType, hCategory, hProject, hProjectRootCount,
    hLineAdditions, hLineDeletions, hLines, hLineNumber, hCursorPosition, hBranch, hLanguage,
    hDependencies, hIsWrite, hTime, hHash]

/-- C3 at a sample heartbeat and a copy with another `ID`, editor, operating
system, machine, user agent, origin and creation time. -/
theorem hashed_ignores_tagged_witness :
    Heartbeat.sample.Hashed.Hash
      = ({ Heartbeat.sample with
            ID := 42, Editor := "Neovim", OperatingSystem := "Darwin", Machine := "desktop",
            UserAgent := "other", Origin := "wakatime", OriginId := "17",
            CreatedAt := ⟨⟨63871200001000000000, none⟩⟩ } : Heartbeat).Hashed.Hash :=
  hashed_ignores_tagged Heartbeat.sample _ rfl rfl rfl rfl rfl rfl rfl rfl rfl rfl rfl rfl rfl rfl
    rfl rfl rfl rfl

/-- C4, as the claim words it, fails: the incoming `Hash` is a visited field.
A sample heartbeat and the same heartbeat carrying the hash of a first call
agree on every field the claim lists, and `Hashed` gives them different
hashes. -/
theorem hashed_incoming_hash_counterexample :
    Heartbeat.sample.Hashed.Hash = "43f9f3855db2c5a7"
    ∧ Heartbeat.sample.Hashed.Hashed.Hash = "32d8d15f9e1f82e4"
    ∧ ¬ (∀ h1 h2 : Heartbeat,
          h1.UserID = h2.UserID → h1.Entity = h2.Entity → h1.Type_ = h2.Type_ →
          h1.Category = h2.Category → h1.Project = h2.Project →
          h1.ProjectRootCount = h2.ProjectRootCount → h1.LineAdditions = h2.LineAdditions →
          h1.LineDeletions = h2.LineDeletions → h1.Lines = h2.Lines →
          h1.LineNumber = h2.LineNumber → h1.CursorPosition = h2.CursorPosition →
          h1.Branch = h2.Branch → h1.Language = h2.Language →
          h1.Dependencies = h2.Dependencies → h1.IsWrite = h2.IsWrite → h1.Time = h2.Time →
          h1.Hashed.Hash = h2.Hashed.Hash) := by
  refine ⟨by decide, by decide, ?_⟩
  intro hall
  have hc := hall Heartbeat.sample Heartbeat.sample.Hashed rfl rfl rfl rfl rfl rfl rfl rfl rfl rfl
    rfl rfl rfl rfl rfl rfl
  revert hc
  decide

/-- C4, amended: two heartbeats that agree on `UserID`, `Entity`, `Type`,
`Category`, `Project`, the metric fields, `Branch`, `Language`,
`Dependencies`, `IsWrite`, `Time` and on the `Hash` they carry before the call
get the same hash from `Hashed`, whatever their `ID`, `User`, `Editor`,
`OperatingSystem`, `Machine`, `UserAgent`, `Origin`, `OriginId` and
`CreatedAt`. -/
theorem hashed_deterministic (h1 h2 : Heartbeat)
    (hUserID : h1.UserID = h2.UserID)
    (hEntity : h1.Entity = h2.Entity) (hType : h1.Type_ = h2.Type_)
    (hCategory : h1.Category = h2.Category) (hProject : h1.Project = h2.Project)
    (hProjectRootCount : h1.ProjectRootCount = h2.ProjectRootCount)
    (hLineAdditions : h1.LineAdditions = h2.LineAdditions)
    (hLineDeletions : h1.LineDeletions = h2.LineDeletions) (hLines : h1.Lines = h2.Lines)
    (hLineNumber : h1.LineNumber = h2.LineNumber)
    (hCursorPosition : h1.CursorPosition = h2.CursorPosition)
    (hBranch : h1.Branch = h2.Branch) (hLanguage : h1.Language = h2.Language)
    (hDependencies : h1.Dependencies = h2.Dependencies) (hIsWrite : h1.IsWrite = h2.IsWrite)
    (hTime : h1.Time = h2.Time) (hHash : h1.Hash = h2.Hash) :
    h1.Hashed.Hash = h2.Hashed.Hash := by
  apply hashed_hash_eq
  simp only [visitedFields, hUserID, hEntity, hType, hCategory, hProject, hProjectRootCount,
    hLineAdditions, hLineDeletions, hLines, hLineNumber, hCursorPosition, hBranch, hLanguage,
    hDependencies, hIsWrite, hTime, hHash]

/-- The amended C4 at a sample heartbeat and a copy with another user record,
`ID` and editor: both get the hash "43f9f3855db2c5a7". -/
theorem hashed_deterministic_witness :
    ({ Heartbeat.sample with User := some ⟨"u2"⟩, ID := 9, Editor := "Zed" } :
        Heartbeat).Hashed.Hash = "43f9f3855db2c5a7" :=
  (hashed_deterministic
    ({ Heartbeat.sample with User := some ⟨"u2"⟩, ID := 9, Editor := "Zed" } : Heartbeat)
    Heartbeat.sample rfl rfl rfl rfl rfl rfl rfl rfl rfl rfl rfl rfl rfl rfl rfl rfl rfl).trans
    (by decide)

/-! ### GetKey and GetEntityColumn -/

/-- C11: for a selector of one of the eight dimensions `GetKey` returns the
field of that dimension when it is not empty; when the field is empty, or the
selector is none of the eight, it returns "unknown". It never returns the
empty string. -/
theorem getKey_spec (h : Heartbeat) (t : Nat) :
    (t = SummaryProject → h.GetKey t = if h.Project = "" then "unknown" else h.Project)
    ∧ (t = SummaryEditor → h.GetKey t = if h.Editor = "" then "unknown" else h.Editor)
    ∧ (t = SummaryLanguage → h.GetKey t = if h.Language = "" then "unknown" else h.Language)
    ∧ (t = SummaryOS →
        h.GetKey t = if h.OperatingSystem = "" then "unknown" else h.OperatingSystem)
    ∧ (t = SummaryMachine → h.GetKey t = if h.Machine = "" then "unknown" else h.Machine)
    ∧ (t = SummaryBranch → h.GetKey t = if h.Branch = "" then "unknown" else h.Branch)
    ∧ (t = SummaryEntity → h.GetKey t = if h.Entity = "" then "unknown" else h.Entity)
    ∧ (t = SummaryCategory → h.GetKey t = if h.Category = "" then "unknown" else h.Category)
    ∧ (t ≠ SummaryProject → t ≠ SummaryEditor → t ≠ SummaryLanguage → t ≠ SummaryOS →
        t ≠ SummaryMachine → t ≠ SummaryBranch → t ≠ SummaryEntity → t ≠ SummaryCategory →
        h.GetKey t = "unknown")
    ∧ h.GetKey t ≠ "" := by
  refine ⟨?_, ?_, ?_, ?_, ?_, ?_, ?_, ?_, ?_, ?_⟩
  · intro ht; subst ht; rfl
  · intro ht; subst ht; rfl
  · intro ht; subst ht; rfl
  · intro ht; subst ht; rfl
  · intro ht; subst ht; rfl
  · intro ht; subst ht; rfl
  · intro ht; subst ht; rfl
  · intro ht; subst ht; rfl
  · intro h1 h2 h3 h4 h5 h6 h7 h8
    simp [GetKey, h1, h2, h3, h4, h5, h6, h7, h8, UnknownSummaryKey]
  · unfold GetKey
    intro hk
    by_cases hkey : (if t = SummaryProject then h.Project
        else if t = SummaryEditor then h.Editor
        else if t = SummaryLanguage then h.Language
        else if t = SummaryOS then h.OperatingSystem
        else if t = SummaryMachine then h.Machine
        else if t = SummaryBranch then h.Branch
        else if t = SummaryEntity then h.Entity
        else if t = SummaryCategory then h.Category
        else "") = ""
    · rw [if_pos hkey] at hk
      revert hk
      decide
    · rw [if_neg hkey] at hk
      exact hkey hk

/-- C11 read at a heartbeat without project: the key of the project dimension
is "unknown", the key of the entity dimension is the entity. -/
theorem getKey_spec_witness :
    ({ Heartbeat.sample with Project := "" } : Heartbeat).GetKey SummaryProject = "unknown"
    ∧ Heartbeat.sample.GetKey SummaryEntity = "/src/main.go"
    ∧ Heartbeat.sample.GetKey 200 = "unknown" :=
  ⟨((getKey_spec _ SummaryProject).1 rfl).trans (by decide),
    ((getKey_spec _ SummaryEntity).2.2.2.2.2.2.1 rfl).trans (by decide),
    (getKey_spec Heartbeat.sample 200).2.2.2.2.2.2.2.2.1 (by decide) (by decide) (by decide)
      (by decide) (by decide) (by decide) (by decide) (by decide)⟩

/-- A selector has a column exactly when it is below seven. -/
theorem getEntityColumn_isSome_iff (t : Nat) : (GetEntityColumn t).isSome = true ↔ t < 7 := by
  unfold GetEntityColumn
  rw [List.get?_eq_getElem?, Option.isSome_iff_exists]
  constructor
  · rintro ⟨s, hs⟩
    have := (List.getElem?_eq_some.mp hs).1
    simpa [entityColumns] using this
  · intro ht
    have hlen : t < entityColumns.length := by simpa [entityColumns] using ht
    exact ⟨entityColumns[t], List.getElem?_eq_getElem hlen⟩

/-- C15: `GetEntityColumn` has no column for the entity and the category
dimensions, which `GetKey` handles: the index is out of range. Whatever
pairwise distinct values eight selectors take, one of them is out of range,
the slice having seven elements. -/
theorem getEntityColumn_misses_dimension :
    GetEntityColumn SummaryEntity = none
    ∧ GetEntityColumn SummaryCategory = none
    ∧ [SummaryProject, SummaryEditor, SummaryLanguage, SummaryOS, SummaryMachine,
        SummaryBranch, SummaryEntity, SummaryCategory].Nodup
    ∧ ∀ l : List Nat, l.Nodup → l.length = 8 → ∃ t ∈ l, GetEntityColumn t = none := by
  refine ⟨by decide, by decide, by decide, ?_⟩
  intro l hnd hlen
  by_contra hall
  have hsub : l ⊆ List.range 7 := by
    intro t ht
    rw [List.mem_range, ← getEntityColumn_isSome_iff]
    cases hg : GetEntityColumn t with
    | none => exact absurd ⟨t, ht, hg⟩ hall
    | some s => rfl
  have hle := (List.subperm_of_subset hnd hsub).length_le
  rw [hlen, List.length_range] at hle
  omega

/-- C18: `GetEntityColumn` indexes a slice of exactly seven names: it succeeds
exactly for a selector below seven, with the name at that position, and
fails for every selector from seven on. -/
theorem getEntityColumn_positional (t : Nat) :
    ((GetEntityColumn t).isSome = true ↔ t < 7)
    ∧ (7 ≤ t → GetEntityColumn t = none)
    ∧ (t < 7 → GetEntityColumn t
        = ["project", "language", "editor", "operating_system", "machine", "label",
            "branch"].get? t)
    ∧ GetEntityColumn 0 = some "project"
    ∧ GetEntityColumn 1 = some "language"
    ∧ GetEntityColumn 2 = some "editor"
    ∧ GetEntityColumn 3 = some "operating_system"
    ∧ GetEntityColumn 4 = some "machine"
    ∧ GetEntityColumn 5 = some "label"
    ∧ GetEntityColumn 6 = some "branch" := by
  refine ⟨getEntityColumn_isSome_iff t, ?_, fun _ => rfl, rfl, rfl, rfl, rfl, rfl, rfl, rfl⟩
  intro ht
  cases hg : GetEntityColumn t with
  | none => rfl
  | some s =>
    have := (getEntityColumn_isSome_iff t).mp (by rw [hg]; rfl)
    omega

/-- C18 at the selectors 6, 7 and 255. -/
theorem getEntityColumn_positional_witness :
    GetEntityColumn 6 = some "branch" ∧ GetEntityColumn 7 = none ∧ GetEntityColumn 255 = none :=
  ⟨(getEntityColumn_positional 6).2.2.2.2.2.2.2.2.2,
    (getEntityColumn_positional 7).2.1 (by decide),
    (getEntityColumn_positional 255).2.1 (by decide)⟩

/-! ### Hexadecimal rendering -/

/-- The digit characters of base 16 are lower-case hexadecimal digits, and
only the digit zero is rendered "0". -/
theorem digitChar_hex :
    ∀ k : Nat, k < 16 →
      isLowerHex (Nat.digitChar k) = true ∧ (k ≠ 0 → Nat.digitChar k ≠ '0') := by
  decide

/-- The digits `Nat.toDigitsCore` puts in front of its accumulator, in base 16
and with enough fuel: at least one, all hexadecimal, "0" alone for zero, no
leading "0" otherwise, and at most `e` of them below `16 ^ e`. -/
theorem toDigitsCore_hex :
    ∀ (fuel n : Nat) (ds : List Char), n < fuel →
      ∃ pre : List Char, Nat.toDigitsCore 16 fuel n ds = pre ++ ds
        ∧ pre ≠ []
        ∧ (∀ c ∈ pre, isLowerHex c = true)
        ∧ (n = 0 → pre = ['0'])
        ∧ (n ≠ 0 → pre.head? ≠ some '0')
        ∧ ∀ e : Nat, 0 < e → n < 16 ^ e → pre.length ≤ e := by
  intro fuel
  induction fuel with
  | zero => intro n ds hn; omega
  | succ fuel ih =>
    intro n ds hn
    have hd := digitChar_hex (n % 16) (Nat.mod_lt n (by decide))
    by_cases hq : n / 16 = 0
    · have hlt : n < 16 := by omega
      have hmod : n % 16 = n := Nat.mod_eq_of_lt hlt
      refine ⟨[Nat.digitChar (n % 16)], ?_, by simp, ?_, ?_, ?_, ?_⟩
      · simp [Nat.toDigitsCore, hq]
      · intro c hc
        rw [List.mem_singleton] at hc
        rw [hc]
        exact hd.1
      · intro h0
        subst h0
        rfl
      · intro h0
        have hnz : n % 16 ≠ 0 := by omega
        simpa using hd.2 hnz
      · intro e hpos _
        simp
        omega
    · have hn16 : 16 ≤ n := by
        by_contra hlt
        exact hq (Nat.div_eq_of_lt (by omega))
      have hlt : n / 16 < fuel := by
        have := Nat.div_lt_self (by omega : 0 < n) (by decide : 1 < 16)
        omega
      obtain ⟨pre, heq, hne, hall, _, hhead, hlen⟩ :=
        ih (n / 16) (Nat.digitChar (n % 16) :: ds) hlt
      refine ⟨pre ++ [Nat.digitChar (n % 16)], ?_, by simp, ?_, ?_, ?_, ?_⟩
      · simp [Nat.toDigitsCore, hq, heq]
      · intro c hc
        rcases List.mem_append.mp hc with h1 | h1
        · exact hall c h1
        · rw [List.mem_singleton] at h1
          rw [h1]
          exact hd.1
      · intro h0
        omega
      · intro _
        cases pre with
        | nil => exact absurd rfl hne
        | cons c rest => simpa using hhead hq
      · intro e _ he
        cases e with
        | zero => simp at he; omega
        | succ e =>
          have h1 : n / 16 < 16 ^ e := by
            rw [Nat.div_lt_iff_lt_mul (by decide)]
            rw [Nat.pow_succ] at he
            exact he
          have hpos : 0 < e := by
            rcases Nat.eq_zero_or_pos e with h0 | h0
            · subst h0
              simp at h1
              omega
            · exact h0
          have := hlen e hpos h1
          simp
          omega

/-- The rendering `sprintfHex`: a non-empty string of lower-case hexadecimal
digits, "0" for zero, without a leading "0" otherwise, of at most `e` digits
below `16 ^ e`. -/
theorem sprintfHex_spec (n : Nat) :
    sprintfHex n ≠ ""
    ∧ (∀ c ∈ (sprintfHex n).data, isLowerHex c = true)
    ∧ (n = 0 → sprintfHex n = "0")
    ∧ (n ≠ 0 → (sprintfHex n).data.head? ≠ some '0')
    ∧ ∀ e : Nat, 0 < e → n < 16 ^ e → (sprintfHex n).length ≤ e := by
  obtain ⟨pre, heq, hne, hall, hzero, hhead, hlen⟩ :=
    toDigitsCore_hex (n + 1) n [] (Nat.lt_succ_self n)
  have hdata : (sprintfHex n).data = pre := by
    simp [sprintfHex, Nat.toDigits, heq]
  refine ⟨?_, ?_, ?_, ?_, ?_⟩
  · intro he
    apply hne
    rw [← hdata, he]
  · rw [hdata]
    exact hall
  · intro h0
    apply String.ext
    rw [hdata, hzero h0]
  · rw [hdata]
    exact hhead
  · intro e hpos he
    show (sprintfHex n).data.length ≤ e
    rw [hdata]
    exact hlen e hpos he

/-- The sum of the FNV-1 hasher over bytes fits 64 bits. -/
theorem fnv64_lt (bytes : List Nat) (hb : ∀ b ∈ bytes, b < 256) : fnv64 bytes < 2 ^ 64 := by
  unfold fnv64
  have hgen : ∀ (l : List Nat) (init : Nat), (∀ b ∈ l, b < 256) → init < 2 ^ 64 →
      l.foldl (fun hash b => (hash * fnvPrime64 % 2 ^ 64) ^^^ b) init < 2 ^ 64 := by
    intro l
    induction l with
    | nil => intro init _ hi; exact hi
    | cons b rest ih =>
      intro init hl _
      rw [List.foldl_cons]
      apply ih _ (fun c hc => hl c (List.mem_cons_of_mem b hc))
      have h1 : init * fnvPrime64 % 2 ^ 64 < 2 ^ 64 := Nat.mod_lt _ (by decide)
      have h2 : b < 2 ^ 64 := by
        have := hl b (List.mem_cons_self b rest)
        omega
      exact Nat.xor_lt_two_pow h1 h2
  exact hgen bytes fnvOffset64 hb (by decide)

/-- The bytes of the encoding of a rune are bytes. -/
theorem utf8EncodeRune_lt (c : Char) : ∀ b ∈ utf8EncodeRune c, b < 256 := by
  have hv : c.toNat < 0x110000 := by
    have := c.valid
    simp only [Char.toNat, UInt32.isValidChar, Nat.isValidChar, UInt32.toNat] at this ⊢
    omega
  intro b hb
  unfold utf8EncodeRune at hb
  simp only at hb
  split_ifs at hb <;> simp only [List.mem_cons, List.mem_singleton, List.not_mem_nil,
    or_false] at hb <;> omega

/-- The hash of a string fits 64 bits. -/
theorem hashString_lt (s : String) : hashString s < 2 ^ 64 := by
  apply fnv64_lt
  intro b hb
  unfold stringBytes at hb
  obtain ⟨c, _, hc⟩ := List.mem_flatMap.mp hb
  exact utf8EncodeRune_lt c b hc

/-- C16: whatever the hash primitive returns, a hash with or without an
error, `Hashed` returns the heartbeat with `Hash` set to the base-16 rendering
of the returned hash, a non-empty string ("0" for the hash zero), and with
every other field unchanged; the method of the source is this one over
`hashstructure.Hash`. -/
theorem hashedWith_never_aborts (prim : Heartbeat → Nat × Option String) (h : Heartbeat) :
    (h.HashedWith prim).Hash = sprintfHex (prim h).1
    ∧ (h.HashedWith prim).Hash ≠ ""
    ∧ ((prim h).1 = 0 → (h.HashedWith prim).Hash = "0")
    ∧ h.HashedWith prim = { h with Hash := (h.HashedWith prim).Hash }
    ∧ h.Hashed = h.HashedWith hashstructureHash := by
  obtain ⟨hne, _, hzero, _, _⟩ := sprintfHex_spec (prim h).1
  exact ⟨rfl, hne, hzero, rfl, rfl⟩

/-- C16 at a primitive that fails with the hash zero: the stored hash is
"0" and the other fields of the sample are kept. -/
theorem hashedWith_never_aborts_witness :
    (Heartbeat.sample.HashedWith (fun _ => (0, some "unknown kind to hash"))).Hash = "0"
    ∧ Heartbeat.sample.HashedWith (fun _ => (0, some "unknown kind to hash"))
        = { Heartbeat.sample with Hash := "0" } := by
  have hw := hashedWith_never_aborts (fun _ => (0, some "unknown kind to hash")) Heartbeat.sample
  refine ⟨hw.2.2.1 rfl, ?_⟩
  rw [hw.2.2.2.1, hw.2.2.1 rfl]

/-! ### Validity along the pipeline -/

/-- The method `Valid` reads `User`, `UserID` and `Time` only. -/
theorem valid_congr (h1 h2 : Heartbeat) (hu : h1.User = h2.User) (hi : h1.UserID = h2.UserID)
    (ht : h1.Time = h2.Time) : h1.Valid = h2.Valid := by
  unfold Valid
  rw [hu, hi, ht]

/-- The method `Sanitize` keeps `User`, `UserID` and `Time`. -/
theorem sanitize_keeps (h : Heartbeat) :
    h.Sanitize.User = h.User ∧ h.Sanitize.UserID = h.UserID ∧ h.Sanitize.Time = h.Time := by
  unfold Sanitize
  split_ifs <;> exact ⟨rfl, rfl, rfl⟩

/-- The method `Augment` keeps every field but `Language`. -/
theorem augment_eq (h : Heartbeat) (m : LanguageMappings) :
    h.Augment m = { h with Language := (h.Augment m).Language } :=
  foldl_augmentStep_frame m (h, -1)

/-- The method `Augment` keeps `User`, `UserID`, `Time` and `Project`. -/
theorem augment_keeps (h : Heartbeat) (m : LanguageMappings) :
    (h.Augment m).User = h.User ∧ (h.Augment m).UserID = h.UserID
    ∧ (h.Augment m).Time = h.Time ∧ (h.Augment m).Project = h.Project := by
  rw [augment_eq h m]
  exact ⟨rfl, rfl, rfl, rfl⟩

/-- Setting `Hash` keeps `User`, `UserID`, `Time` and `Project`. -/
theorem with_hash_keeps (h : Heartbeat) (s : String) :
    ({ h with Hash := s } : Heartbeat).User = h.User
    ∧ ({ h with Hash := s } : Heartbeat).UserID = h.UserID
    ∧ ({ h with Hash := s } : Heartbeat).Time = h.Time
    ∧ ({ h with Hash := s } : Heartbeat).Project = h.Project :=
  ⟨rfl, rfl, rfl, rfl⟩

/-- The method `Hashed` keeps `User`, `UserID`, `Time` and `Project`. -/
theorem hashed_keeps (h : Heartbeat) :
    h.Hashed.User = h.User ∧ h.Hashed.UserID = h.UserID ∧ h.Hashed.Time = h.Time
    ∧ h.Hashed.Project = h.Project :=
  with_hash_keeps h (sprintfHex (hashstructureHash h).1)

/-- C19: `Sanitize`, `Augment` and `Hashed` keep the validity of a heartbeat,
none of them changing `User`, `UserID` or `Time`. -/
theorem valid_preserved (h : Heartbeat) (m : LanguageMappings) :
    h.Sanitize.Valid = h.Valid
    ∧ (h.Augment m).Valid = h.Valid
    ∧ h.Hashed.Valid = h.Valid
    ∧ (h.Sanitize.User = h.User ∧ h.Sanitize.UserID = h.UserID ∧ h.Sanitize.Time = h.Time)
    ∧ ((h.Augment m).User = h.User ∧ (h.Augment m).UserID = h.UserID
        ∧ (h.Augment m).Time = h.Time)
    ∧ (h.Hashed.User = h.User ∧ h.Hashed.UserID = h.UserID ∧ h.Hashed.Time = h.Time) := by
  obtain ⟨s1, s2, s3⟩ := sanitize_keeps h
  obtain ⟨a1, a2, a3, _⟩ := augment_keeps h m
  obtain ⟨k1, k2, k3, _⟩ := hashed_keeps h
  exact ⟨valid_congr _ _ s1 s2 s3, valid_congr _ _ a1 a2 a3, valid_congr _ _ k1 k2 k3,
    ⟨s1, s2, s3⟩, ⟨a1, a2, a3⟩, ⟨k1, k2, k3⟩⟩

/-- C19 at the sample heartbeat, which is valid, and at the empty one, which
is not. -/
theorem valid_preserved_witness :
    (Heartbeat.sample.Sanitize.Valid = true
      ∧ (Heartbeat.sample.Augment [("go", "Go")]).Valid = true
      ∧ Heartbeat.sample.Hashed.Valid = true)
    ∧ Heartbeat.empty.Sanitize.Valid = false := by
  have hs := valid_preserved Heartbeat.sample [("go", "Go")]
  have he := valid_preserved Heartbeat.empty []
  have hv : Heartbeat.sample.Valid = true := by decide
  have hn : Heartbeat.empty.Valid = false := by decide
  exact ⟨⟨hs.1.trans hv, hs.2.1.trans hv, hs.2.2.1.trans hv⟩, he.1.trans hn⟩

/-- C14: a heartbeat of type "url" whose project is the placeholder
"<<LAST_PROJECT>>", with a user whose `ID` is the non-empty `UserID` and a
non-zero time: `Sanitize` empties the project, and after `Sanitize`,
`Augment` and `Hashed` the heartbeat is valid and its project key is
"unknown". -/
theorem pipeline_last_project (h : Heartbeat) (m : LanguageMappings) (u : User)
    (hType : h.Type_ = "url") (hProject : h.Project = "<<LAST_PROJECT>>")
    (hUser : h.User = some u) (hID : u.ID = h.UserID) (hUserID : h.UserID ≠ "")
    (hTime : h.Time ≠ CustomTime.zero) :
    h.Sanitize.Project = ""
    ∧ ((h.Sanitize.Augment m).Hashed).Valid = true
    ∧ ((h.Sanitize.Augment m).Hashed).GetKey SummaryProject = "unknown" := by
  have hp : h.Sanitize.Project = "" := by
    simp [Sanitize, hType, hProject]
  obtain ⟨s1, s2, s3⟩ := sanitize_keeps h
  obtain ⟨a1, a2, a3, a4⟩ := augment_keeps h.Sanitize m
  obtain ⟨k1, k2, k3, k4⟩ := hashed_keeps (h.Sanitize.Augment m)
  have hv : h.Valid = true := by
    unfold Valid
    rw [hUser]
    simp [hID, hUserID, hTime]
  refine ⟨hp, ?_, ?_⟩
  · rw [valid_congr _ _ k1 k2 k3, valid_congr _ _ a1 a2 a3, valid_congr _ _ s1 s2 s3]
    exact hv
  · have e2 : ((h.Sanitize.Augment m).Hashed).Project = "" := by
      rw [k4, a4, hp]
    simp [GetKey, SummaryProject, e2, UnknownSummaryKey]

/-- C14 at the heartbeat of the scenario, entity "https://example.com", with a
mapping for "com". -/
theorem pipeline_last_project_witness :
    ({ Heartbeat.sample with
        Type_ := "url", Project := "<<LAST_PROJECT>>", Entity := "https://example.com" } :
      Heartbeat).Sanitize.Project = ""
    ∧ ((({ Heartbeat.sample with
        Type_ := "url", Project := "<<LAST_PROJECT>>", Entity := "https://example.com" } :
      Heartbeat).Sanitize.Augment [("com", "Web")]).Hashed).Valid = true
    ∧ ((({ Heartbeat.sample with
        Type_ := "url", Project := "<<LAST_PROJECT>>", Entity := "https://example.com" } :
      Heartbeat).Sanitize.Augment [("com", "Web")]).Hashed).GetKey SummaryProject = "unknown" :=
  pipeline_last_project _ [("com", "Web")] ⟨"u1"⟩ rfl rfl rfl rfl (by decide) (by decide)

/-! ### Order of the mappings -/

/-- Without a matching key `Augment` leaves the language as it was. -/
theorem augment_no_match (h : Heartbeat) (m : LanguageMappings)
    (hno : ∀ k ∈ m.map Prod.fst, matchesKey h.Entity k = false) :
    (h.Augment m).Language = h.Language := by
  obtain ⟨_, _, hlast⟩ := foldl_augmentStep_spec m (h, -1)
  rcases hlast with hsame | ⟨kv, hin, hmatch, _⟩
  · unfold Augment
    rw [hsame]
  · have hf := hno kv.1 (List.mem_map.mpr ⟨kv, hin, rfl⟩)
    rw [hf] at hmatch
    exact absurd hmatch (by decide)

/-- The language `Augment` stores is the same for two enumerations of one
map. -/
theorem augment_language_perm (h : Heartbeat) (m1 m2 : LanguageMappings)
    (hm : keysDistinct m1) (hp : m1.Perm m2) :
    (h.Augment m1).Language = (h.Augment m2).Language := by
  have hkeys : ∀ k, k ∈ m1.map Prod.fst ↔ k ∈ m2.map Prod.fst :=
    fun k => (hp.map Prod.fst).mem_iff
  by_cases hex : ∃ k ∈ m1.map Prod.fst, matchesKey h.Entity k = true
  · have hex2 : ∃ k ∈ m2.map Prod.fst, matchesKey h.Entity k = true := by
      obtain ⟨k, hk, hmatch⟩ := hex
      exact ⟨k, (hkeys k).mp hk, hmatch⟩
    obtain ⟨kv1, hin1, hmatch1, hmax1, hlang1⟩ := augment_picks_strict h m1 hex
    obtain ⟨kv2, hin2, hmatch2, hmax2, hlang2⟩ := augment_picks_strict h m2 hex2
    have hin21 : kv2 ∈ m1 := hp.mem_iff.mpr hin2
    have hk1 : kv1.1 ∈ m2.map Prod.fst := (hkeys kv1.1).mp (List.mem_map.mpr ⟨kv1, hin1, rfl⟩)
    have hk2 : kv2.1 ∈ m1.map Prod.fst := List.mem_map.mpr ⟨kv2, hin21, rfl⟩
    have hsame : kv2.1 = kv1.1 := by
      by_contra hne
      have h1 := (hmax1 kv2.1 hk2 hmatch2 hne).1
      have h2 := (hmax2 kv1.1 hk1 hmatch1 (Ne.symm hne)).1
      omega
    have hl1 := lookup_of_mem m1 hm kv1 hin1
    have hl2 := lookup_of_mem m1 hm kv2 hin21
    rw [hsame, hl1] at hl2
    rw [hlang1, hlang2]
    exact Option.some.inj hl2
  · have hno1 : ∀ k ∈ m1.map Prod.fst, matchesKey h.Entity k = false := by
      intro k hk
      rw [← Bool.not_eq_true]
      exact fun hmatch => hex ⟨k, hk, hmatch⟩
    have hno2 : ∀ k ∈ m2.map Prod.fst, matchesKey h.Entity k = false :=
      fun k hk => hno1 k ((hkeys k).mpr hk)
    rw [augment_no_match h m1 hno1, augment_no_match h m2 hno2]

/-- C17: two distinct keys that both match an entity never have the same
number of "." characters, so the loop of `Augment` meets no tie; and for two
enumerations of one map (with distinct keys) `Augment` returns the same
heartbeat, hence the same language. -/
theorem augment_order_independent (h : Heartbeat) (m1 m2 : LanguageMappings)
    (hm : keysDistinct m1) (hp : m1.Perm m2) :
    (∀ e k1 k2 : String, matchesKey e k1 = true → matchesKey e k2 = true → k1 ≠ k2 →
        precision k1 ≠ precision k2)
    ∧ (h.Augment m1).Language = (h.Augment m2).Language
    ∧ h.Augment m1 = h.Augment m2 := by
  have hlang := augment_language_perm h m1 m2 hm hp
  refine ⟨?_, hlang, ?_⟩
  · intro e k1 k2 h1 h2 hne
    rcases matching_keys_ordered e k1 k2 h1 h2 hne with hlt | hgt
    · omega
    · omega
  · rw [augment_eq h m1, augment_eq h m2, hlang]

/-- C17 at the two enumerations of the mappings "ts" and "test.ts", on the
entity "foo.test.ts". -/
theorem augment_order_independent_witness :
    ({ Heartbeat.empty with Entity := "foo.test.ts" } : Heartbeat).Augment
        [("ts", "TypeScript"), ("test.ts", "TypeScript-Test")]
      = ({ Heartbeat.empty with Entity := "foo.test.ts" } : Heartbeat).Augment
        [("test.ts", "TypeScript-Test"), ("ts", "TypeScript")]
    ∧ precision "ts" ≠ precision "test.ts" :=
  ⟨(augment_order_independent _ _ _ (by decide) (List.Perm.swap _ _ _)).2.2,
    (augment_order_independent Heartbeat.empty [] [] (by decide) (List.Perm.refl _)).1
      "foo.test.ts" "ts" "test.ts" (by decide) (by decide) (by decide)⟩

/-! ### Sensitivity of the hash -/

/-- The 64-bit hash of strings has collisions: there are more strings than
hashes. -/
theorem hashString_collision : ∃ e1 e2 : String, e1 ≠ e2 ∧ hashString e1 = hashString e2 := by
  have hni : ¬ Function.Injective
      (fun n : Nat =>
        (⟨hashString (String.mk (List.replicate n 'a')), hashString_lt _⟩ : Fin (2 ^ 64))) :=
    not_injective_infinite_finite _
  unfold Function.Injective at hni
  push_neg at hni
  obtain ⟨n, k, heq, hne⟩ := hni
  refine ⟨String.mk (List.replicate n 'a'), String.mk (List.replicate k 'a'), ?_, ?_⟩
  · intro hs
    apply hne
    have hl := congrArg (fun s : String => s.data.length) hs
    simpa using hl
  · exact congrArg Fin.val heq

/-- Two heartbeats whose times have the same `CustomTime.Hash` and that agree
elsewhere get the same hash. -/
theorem hashed_time_same_hash (h : Heartbeat) (t : CustomTime) (ht : t.Hash = h.Time.Hash) :
    ({ h with Time := t } : Heartbeat).Hashed.Hash = h.Hashed.Hash := by
  apply hashed_hash_eq
  simp only [visitedFields, ht]

/-- C12, as the claim words it, fails for each of the four fields. The sample
heartbeat and its copy one nanosecond later, in the same millisecond, get the
same hash; the sample heartbeat with 758828553 lines and with 2669708280
lines gets the same hash "182b4184047f22bd"; and since distinct strings can
have the same 64-bit hash, not every change of `Entity` or of `Project`
changes the hash either. -/
theorem hashed_sensitivity_counterexample :
    (({ Heartbeat.sample with Time := ⟨⟨63871200000123456790, none⟩⟩ } : Heartbeat).Time
        ≠ Heartbeat.sample.Time
      ∧ ({ Heartbeat.sample with Time := ⟨⟨63871200000123456790, none⟩⟩ } : Heartbeat).Hashed.Hash
        = Heartbeat.sample.Hashed.Hash)
    ∧ (({ Heartbeat.sample with Lines := 758828553 } : Heartbeat).Hashed.Hash
        = "182b4184047f22bd"
      ∧ ({ Heartbeat.sample with Lines := 2669708280 } : Heartbeat).Hashed.Hash
        = "182b4184047f22bd")
    ∧ ¬ (∀ (h : Heartbeat) (t : CustomTime), t ≠ h.Time →
          ({ h with Time := t } : Heartbeat).Hashed.Hash ≠ h.Hashed.Hash)
    ∧ ¬ (∀ (h : Heartbeat) (l : Nat), h.Lines < 2 ^ 32 → l < 2 ^ 32 → l ≠ h.Lines →
          ({ h with Lines := l } : Heartbeat).Hashed.Hash ≠ h.Hashed.Hash)
    ∧ ¬ (∀ (h : Heartbeat) (e : String), e ≠ h.Entity →
          ({ h with Entity := e } : Heartbeat).Hashed.Hash ≠ h.Hashed.Hash)
    ∧ ¬ (∀ (h : Heartbeat) (p : String), p ≠ h.Project →
          ({ h with Project := p } : Heartbeat).Hashed.Hash ≠ h.Hashed.Hash) := by
  have hne : (⟨⟨63871200000123456790, none⟩⟩ : CustomTime) ≠ Heartbeat.sample.Time := by decide
  have hsame : ({ Heartbeat.sample with Time := ⟨⟨63871200000123456790, none⟩⟩ } : Heartbeat).Hashed.Hash
      = Heartbeat.sample.Hashed.Hash :=
    hashed_time_same_hash Heartbeat.sample ⟨⟨63871200000123456790, none⟩⟩ (by decide)
  have hl1 : ({ Heartbeat.sample with Lines := 758828553 } : Heartbeat).Hashed.Hash
      = "182b4184047f22bd" := by decide
  have hl2 : ({ Heartbeat.sample with Lines := 2669708280 } : Heartbeat).Hashed.Hash
      = "182b4184047f22bd" := by decide
  refine ⟨⟨hne, hsame⟩, ⟨hl1, hl2⟩, ?_, ?_, ?_, ?_⟩
  · intro hall
    exact hall Heartbeat.sample ⟨⟨63871200000123456790, none⟩⟩ hne hsame
  · intro hall
    exact hall ({ Heartbeat.sample with Lines := 758828553 } : Heartbeat) 2669708280
      (by decide) (by decide) (by decide) (hl2.trans hl1.symm)
  · intro hall
    obtain ⟨e1, e2, hdiff, hcol⟩ := hashString_collision
    apply hall ({ Heartbeat.sample with Entity := e2 } : Heartbeat) e1 hdiff
    apply hashed_hash_eq
    simp only [visitedFields, hcol]
  · intro hall
    obtain ⟨p1, p2, hdiff, hcol⟩ := hashString_collision
    apply hall ({ Heartbeat.sample with Project := p2 } : Heartbeat) p1 hdiff
    apply hashed_hash_eq
    simp only [visitedFields, hcol]

/-- C12, amended: `Entity`, `Project`, `Time` and `Lines` are part of the
fingerprint. For the sample heartbeat, another entity, another project, one
line more or a time one millisecond later changes the hash; the change is
not guaranteed for every value, the hash having 64 bits, and for every
heartbeat a time with the same millisecond hash leaves the hash as it is. -/
theorem hashed_sensitivity (h : Heartbeat) (t : CustomTime) :
    ({ Heartbeat.sample with Entity := "/src/main_test.go" } : Heartbeat).Hashed.Hash
        ≠ Heartbeat.sample.Hashed.Hash
    ∧ ({ Heartbeat.sample with Project := "wakapi" } : Heartbeat).Hashed.Hash
        ≠ Heartbeat.sample.Hashed.Hash
    ∧ ({ Heartbeat.sample with Lines := 121 } : Heartbeat).Hashed.Hash
        ≠ Heartbeat.sample.Hashed.Hash
    ∧ ({ Heartbeat.sample with Time := ⟨⟨63871200000124456789, none⟩⟩ } : Heartbeat).Hashed.Hash
        ≠ Heartbeat.sample.Hashed.Hash
    ∧ (t.Hash = h.Time.Hash →
        ({ h with Time := t } : Heartbeat).Hashed.Hash = h.Hashed.Hash) := by
  refine ⟨by decide, by decide, by decide, by decide, hashed_time_same_hash h t⟩

/-- The amended C12 at the sample heartbeat and a time half a millisecond
later, in the same millisecond: the hash is the same. -/
theorem hashed_sensitivity_witness :
    ({ Heartbeat.sample with Time := ⟨⟨63871200000123956789, none⟩⟩ } : Heartbeat).Hashed.Hash
      = Heartbeat.sample.Hashed.Hash :=
  (hashed_sensitivity Heartbeat.sample ⟨⟨63871200000123956789, none⟩⟩).2.2.2.2 (by decide)

end Models
